import Mathlib

/-
Verification of the ArchiSlicer toolpath backend
(`src/ArchiSlicer/backend/services/...`).

Shallow embedding conventions:
* Python floats are modelled as rationals (`ℚ`); coordinates are pairs `ℚ × ℚ`.
* Euclidean distances appear in the source only (a) inside strict comparisons
  driving control flow and (b) in reported length statistics.  Control-flow
  comparisons `sqrt a < sqrt b` (with `a b ≥ 0`) are embedded as comparisons
  of the squared distances, which is equivalent because `Real.sqrt` is
  strictly monotone on nonnegative reals; reported lengths are embedded as
  real numbers `Real.sqrt` of the squared distance.
* Calls into external libraries (shapely `buffer`/`intersection`, the
  optional `centerline` package, numpy trigonometry) are abstracted as
  function parameters; everything written in the repository itself is
  translated directly.
* Python exceptions are modelled with `Except`; a `try/except` block that
  logs and continues maps an `Except.error` to the recovery value.
-/

/-! ## Basic geometry (services/geometry_utils.py types) -/

/-- A 2-D point `(x, y)` — Python `Point2D = Tuple[float, float]`. -/
abbrev Pt : Type := ℚ × ℚ

/-- A line segment `((x1, y1), (x2, y2))` — Python `LineSegment`. -/
abbrev Sg : Type := Pt × Pt

/-- A polyline — Python `Polyline = List[Point2D]`. -/
abbrev Pl : Type := List Pt

/-- Squared Euclidean distance.  `calculate_distance p q` in
`path_optimizer.py` is `Real.sqrt (sqDist p q)`; comparisons between such
distances are embedded as comparisons of `sqDist` values. -/
def sqDist (p q : Pt) : ℚ :=
  (q.1 - p.1) ^ 2 + (q.2 - p.2) ^ 2

/-- The reported Euclidean distance `calculate_distance` itself. -/
noncomputable def dist2 (p q : Pt) : ℝ :=
  Real.sqrt (sqDist p q)

/-- Reversing a segment: `seg = (seg[1], seg[0])`. -/
def flipSeg (s : Sg) : Sg := (s.2, s.1)

theorem sqDist_symm (p q : Pt) : sqDist p q = sqDist q p := by
  unfold sqDist; ring

theorem sqDist_nonneg (p q : Pt) : 0 ≤ sqDist p q := by
  unfold sqDist; positivity

theorem dist2_symm (p q : Pt) : dist2 p q = dist2 q p := by
  unfold dist2; rw [sqDist_symm]

/-! ## Chaikin smoothing
(`_chaikin_smooth` in `centerline_extractor.py`, identical to
`chaikin_smooth` in `centerline/smoothing.py`). -/

/-- The 1/4 interpolation point: `Q = 3/4 * P0 + 1/4 * P1`. -/
def chaikinQ (p0 p1 : Pt) : Pt :=
  (3/4 * p0.1 + 1/4 * p1.1, 3/4 * p0.2 + 1/4 * p1.2)

/-- The 3/4 interpolation point: `R = 1/4 * P0 + 3/4 * P1`. -/
def chaikinR (p0 p1 : Pt) : Pt :=
  (1/4 * p0.1 + 3/4 * p1.1, 1/4 * p0.2 + 3/4 * p1.2)

/-- `for i in range(len(result) - 1): new_coords.extend([q, r])` —
the Q/R pairs of every consecutive point pair. -/
def chaikinPairs : List Pt → List Pt
  | p0 :: p1 :: rest => chaikinQ p0 p1 :: chaikinR p0 p1 :: chaikinPairs (p1 :: rest)
  | _ => []

/-- One Chaikin pass: keep the first point, emit the Q/R pairs, keep the
last point. -/
def chaikinOnce (res : List Pt) : List Pt :=
  (res.headD (0, 0) :: chaikinPairs res) ++ [res.getLastD (0, 0)]

/-- `_chaikin_smooth(coords, iterations)`: iterate `chaikinOnce`,
returning early when fewer than 3 points remain. -/
def chaikinSmooth (coords : List Pt) : ℕ → List Pt
  | 0 => coords
  | n + 1 => if coords.length < 3 then coords else chaikinSmooth (chaikinOnce coords) n

theorem chaikinPairs_length (l : List Pt) :
    (chaikinPairs l).length = 2 * (l.length - 1) := by
  induction l with
  | nil => rfl
  | cons a l ih =>
    cases l with
    | nil => rfl
    | cons b t =>
      have hstep : chaikinPairs (a :: b :: t) =
          chaikinQ a b :: chaikinR a b :: chaikinPairs (b :: t) := rfl
      rw [hstep]
      simp only [List.length_cons] at ih ⊢
      omega

theorem chaikinOnce_length (l : List Pt) (h : 1 ≤ l.length) :
    (chaikinOnce l).length = 2 * l.length := by
  simp [chaikinOnce, chaikinPairs_length]
  omega

theorem chaikinOnce_head (l : List Pt) :
    (chaikinOnce l).headD (0, 0) = l.headD (0, 0) := by
  simp [chaikinOnce]

theorem chaikinOnce_getLast (l : List Pt) :
    (chaikinOnce l).getLastD (0, 0) = l.getLastD (0, 0) := by
  simp only [chaikinOnce]
  rw [List.getLastD_concat]

/-- Amended point-count law: starting from `n ≥ 3` points, each pass
doubles the count, so `N` passes give `n * 2^N` points with the endpoints
preserved; `0` passes return the input unchanged. -/
theorem chaikinSmooth_spec (coords : List Pt) (n : ℕ) :
    chaikinSmooth coords 0 = coords ∧
    (3 ≤ coords.length →
      (chaikinSmooth coords n).length = coords.length * 2 ^ n ∧
      (chaikinSmooth coords n).headD (0, 0) = coords.headD (0, 0) ∧
      (chaikinSmooth coords n).getLastD (0, 0) = coords.getLastD (0, 0)) := by
  refine ⟨rfl, ?_⟩
  induction n generalizing coords with
  | zero => intro _; simp [chaikinSmooth]
  | succ n ih =>
    intro h3
    have hlt : ¬ coords.length < 3 := by omega
    have h1 : 1 ≤ coords.length := by omega
    have h3' : 3 ≤ (chaikinOnce coords).length := by
      rw [chaikinOnce_length coords h1]; omega
    have := ih (chaikinOnce coords) h3'
    simp only [chaikinSmooth, if_neg hlt]
    refine ⟨?_, ?_, ?_⟩
    · rw [this.1, chaikinOnce_length coords h1]; ring
    · rw [this.2.1, chaikinOnce_head]
    · rw [this.2.2, chaikinOnce_getLast]

/-- Witness for `chaikinSmooth_spec` at a concrete 3-point polyline and
`N = 2`: the hypothesis `3 ≤ length` holds and the conclusions follow. -/
theorem chaikinSmooth_spec_witness :
    3 ≤ ([((0 : ℚ), (0 : ℚ)), (1, 0), (1, 1)] : List Pt).length ∧
    (chaikinSmooth [((0 : ℚ), (0 : ℚ)), (1, 0), (1, 1)] 2).length = 3 * 2 ^ 2 := by
  refine ⟨by decide, ?_⟩
  have h := (chaikinSmooth_spec [((0 : ℚ), (0 : ℚ)), (1, 0), (1, 1)] 2).2 (by decide)
  simpa using h.1

/-- Counterexample to the claimed point-count formula `1 + (len-1)*2^N`:
one Chaikin pass on a 3-point polyline yields 6 points, not 5. -/
theorem chaikinSmooth_count_counterexample :
    (chaikinSmooth [((0 : ℚ), (0 : ℚ)), (1, 0), (1, 1)] 1).length = 6 ∧
    (chaikinSmooth [((0 : ℚ), (0 : ℚ)), (1, 0), (1, 1)] 1).length ≠ 1 + (3 - 1) * 2 ^ 1 := by
  constructor
  · rfl
  · decide

/-! ## Inward polygon offset (`offset_polygon` in `geometry_utils.py`).
The shapely geometry type and `Polygon.buffer` are external; they are
abstracted as a type `G` with an emptiness test, a distinguished empty
polygon `Polygon()`, and a buffer function. -/

/-- `offset_polygon(polygon, distance)`: `distance <= 0` is the identity;
otherwise buffer by `-distance` (mitred joins), mapping an empty buffer
result to the explicit empty polygon. -/
def offsetPolygon {G : Type} (isEmptyG : G → Bool) (emptyG : G)
    (buffer : G → ℚ → G) (polygon : G) (distance : ℚ) : G :=
  if distance ≤ 0 then polygon
  else
    let result := buffer polygon (-distance)
    if isEmptyG result then emptyG else result

/-- Offset contract: nonpositive distances are the identity (so offsetting
by 0 returns the polygon unchanged), and a vanished shape becomes the
explicit empty polygon, never an exception. -/
theorem offsetPolygon_spec {G : Type} (isEmptyG : G → Bool) (emptyG : G)
    (buffer : G → ℚ → G) (polygon : G) (distance : ℚ) :
    (distance ≤ 0 → offsetPolygon isEmptyG emptyG buffer polygon distance = polygon) ∧
    (offsetPolygon isEmptyG emptyG buffer polygon 0 = polygon) ∧
    (0 < distance → isEmptyG (buffer polygon (-distance)) = true →
      offsetPolygon isEmptyG emptyG buffer polygon distance = emptyG) := by
  refine ⟨fun h => by simp [offsetPolygon, h], by simp [offsetPolygon], ?_⟩
  intro hpos hempty
  have : ¬ distance ≤ 0 := not_le.mpr hpos
  simp [offsetPolygon, this, hempty]

/-- Witness for `offsetPolygon_spec` on a concrete instance
(`G := Bool`, emptiness is the identity, buffer always vanishes). -/
theorem offsetPolygon_spec_witness :
    offsetPolygon (fun b : Bool => b) true (fun _ _ => true) false 0 = false ∧
    ((0 : ℚ) < 1 ∧ (fun b : Bool => b) ((fun (_ : Bool) (_ : ℚ) => true) false (-1)) = true) ∧
    offsetPolygon (fun b : Bool => b) true (fun _ _ => true) false 1 = true := by
  have h := offsetPolygon_spec (fun b : Bool => b) true (fun _ _ => true) false 1
  exact ⟨(offsetPolygon_spec (fun b : Bool => b) true (fun _ _ => true) false 0).2.1,
    ⟨by norm_num, rfl⟩, h.2.2 (by norm_num) rfl⟩

/-! ## Infill generator factory (`get_infill_generator` in `infill/utils.py`). -/

/-- The five infill pattern classes. -/
inductive PatternKind : Type
  | lines
  | grid
  | concentric
  | crosshatch
  | zigzag
deriving DecidableEq

/-- The `generators` dict literal. -/
def generatorsDict : List (String × PatternKind) :=
  [("lines", .lines), ("grid", .grid), ("concentric", .concentric),
   ("crosshatch", .crosshatch), ("zigzag", .zigzag)]

/-- Python `str.lower()` (character-wise lowercasing; Lean's own
`String.toLower` is not kernel-reducible, so the map is spelled out). -/
def strLowercase (s : String) : String := ⟨s.data.map Char.toLower⟩

/-- `get_infill_generator`: look the lowercased pattern name up in the
dict; `None` defaults to `LineInfill`. -/
def getInfillGenerator (patternType : String) : PatternKind :=
  match generatorsDict.lookup (strLowercase patternType) with
  | some k => k
  | none => PatternKind.lines

/-- Unknown pattern names (after lowercasing) map to the Lines pattern;
the factory is total, so no name raises. -/
theorem getInfillGenerator_default (s : String)
    (h : strLowercase s ∉ ["lines", "grid", "concentric", "crosshatch", "zigzag"]) :
    getInfillGenerator s = PatternKind.lines := by
  simp only [List.mem_cons, List.not_mem_nil, or_false, not_or] at h
  obtain ⟨h1, h2, h3, h4, h5⟩ := h
  have e1 : (strLowercase s == "lines") = false := beq_eq_false_iff_ne.mpr h1
  have e2 : (strLowercase s == "grid") = false := beq_eq_false_iff_ne.mpr h2
  have e3 : (strLowercase s == "concentric") = false := beq_eq_false_iff_ne.mpr h3
  have e4 : (strLowercase s == "crosshatch") = false := beq_eq_false_iff_ne.mpr h4
  have e5 : (strLowercase s == "zigzag") = false := beq_eq_false_iff_ne.mpr h5
  unfold getInfillGenerator generatorsDict
  simp [List.lookup, e1, e2, e3, e4, e5]

/-- Witness: the unknown name `"bogus"` yields the Lines pattern. -/
theorem getInfillGenerator_default_witness :
    strLowercase "bogus" ∉ ["lines", "grid", "concentric", "crosshatch", "zigzag"] ∧
    getInfillGenerator "bogus" = PatternKind.lines :=
  ⟨by decide, getInfillGenerator_default "bogus" (by decide)⟩

/-! ## Centerline strategy dispatch (`extract_centerlines`,
`_extract_centerlines_voronoi` in `centerline_extractor.py`). -/

/-- Which per-polygon extraction strategy `extract_centerlines` runs. -/
inductive StrategyUsed : Type
  | voronoi
  | offset
  | skeleton
deriving DecidableEq

/-- The strategy dispatch of `extract_centerlines` (lines 91–107):
`if method == "voronoi" and CENTERLINE_AVAILABLE: ... elif method ==
"offset": ... else: skeleton`. -/
def chooseStrategy (method : String) (centerlineAvailable : Bool) : StrategyUsed :=
  if method == "voronoi" && centerlineAvailable then .voronoi
  else if method == "offset" then .offset
  else .skeleton

/-- `_extract_centerlines_voronoi` with the external `centerline` package
abstracted: the availability guard returns `[]`, the validity/emptiness
guard returns `[]`, and the `try/except` around the core computation maps
an exception to `[]`.  `core` stands for the whole Voronoi pipeline body. -/
def extractCenterlinesVoronoi {E : Type} (centerlineAvailable : Bool)
    (polygonEmptyOrTiny : Bool) (core : Except E (List Pl)) : List Pl :=
  if !centerlineAvailable then []
  else if polygonEmptyOrTiny then []
  else
    match core with
    | .ok r => r
    | .error _ => []

/-- Counterexample to C1 as stated: requesting `method="voronoi"` while
the capability is unavailable does not run the (empty-returning) voronoi
strategy — `extract_centerlines` silently substitutes the skeleton
strategy. -/
theorem chooseStrategy_voronoi_unavailable_counterexample :
    chooseStrategy "voronoi" false ≠ StrategyUsed.voronoi ∧
    chooseStrategy "voronoi" false = StrategyUsed.skeleton := by
  constructor <;> decide

/-- Amended C1: with the capability unavailable, the dispatcher falls back
to the skeleton strategy for every polygon, while the voronoi extraction
function itself — if invoked — returns an empty result rather than
raising. -/
theorem voronoi_unavailable_spec :
    chooseStrategy "voronoi" false = StrategyUsed.skeleton ∧
    (∀ (E : Type) (tiny : Bool) (core : Except E (List Pl)),
      extractCenterlinesVoronoi false tiny core = []) := by
  refine ⟨by decide, fun E tiny core => ?_⟩
  simp [extractCenterlinesVoronoi]

/-! ## Greedy nearest-neighbor scans (`path_optimizer.py`).
Both `_greedy_optimize` and `_greedy_optimize_polylines` keep a running
best candidate `(best_idx, best_dist, marker)` and update it with strict
`<` comparisons; `best_dist` starts at `float("inf")`, modelled as
`none`.  The marker is `best_reversed : Bool` for segments and
`best_start_idx : ℤ` for polylines. -/

/-- Scan state `(best_idx, best_dist, marker)`. -/
abbrev ScanSt (α : Type) : Type := ℕ × Option ℚ × α

/-- `d < best_dist`, where `none` stands for `float("inf")`. -/
def ltInf (d : ℚ) : Option ℚ → Bool
  | none => true
  | some b => decide (d < b)

/-- One candidate update `if d < best_dist: best_* = ...`; a candidate
is `(index, marker, squared distance)`. -/
def updCand {α : Type} (st : ScanSt α) (c : ℕ × α × ℚ) : ScanSt α :=
  if ltInf c.2.2 st.2.1 then (c.1, some c.2.2, c.2.1) else st

theorem updCand_cases {α : Type} (st : ScanSt α) (c : ℕ × α × ℚ) :
    updCand st c = st ∨ updCand st c = (c.1, some c.2.2, c.2.1) := by
  unfold updCand
  split
  · exact Or.inr rfl
  · exact Or.inl rfl

theorem foldl_updCand_attain {α : Type} (cs : List (ℕ × α × ℚ)) (st : ScanSt α) :
    cs.foldl updCand st = st ∨
    ∃ c ∈ cs, cs.foldl updCand st = (c.1, some c.2.2, c.2.1) := by
  induction cs generalizing st with
  | nil => exact Or.inl rfl
  | cons a cs ih =>
    rw [List.foldl_cons]
    rcases ih (updCand st a) with h | ⟨c, hc, he⟩
    · rcases updCand_cases st a with h2 | h2
      · exact Or.inl (h.trans h2)
      · exact Or.inr ⟨a, List.mem_cons_self a cs, h.trans h2⟩
    · exact Or.inr ⟨c, List.mem_cons_of_mem a hc, he⟩

theorem foldl_updCand_mono {α : Type} (cs : List (ℕ × α × ℚ)) (st : ScanSt α)
    (b : ℚ) (h : st.2.1 = some b) :
    ∃ b' ≤ b, (cs.foldl updCand st).2.1 = some b' := by
  induction cs generalizing st b with
  | nil => exact ⟨b, le_refl b, h⟩
  | cons a cs ih =>
    rw [List.foldl_cons]
    by_cases hlt : ltInf a.2.2 st.2.1 = true
    · have hst : (updCand st a).2.1 = some a.2.2 := by simp [updCand, hlt]
      obtain ⟨b', hb', he⟩ := ih (updCand st a) a.2.2 hst
      refine ⟨b', le_trans hb' ?_, he⟩
      rw [h] at hlt
      simp only [ltInf, decide_eq_true_eq] at hlt
      exact le_of_lt hlt
    · have hst : (updCand st a).2.1 = some b := by
        rw [updCand, if_neg hlt]; exact h
      exact ih (updCand st a) b hst

theorem foldl_updCand_min {α : Type} (cs : List (ℕ × α × ℚ)) (st : ScanSt α)
    (c : ℕ × α × ℚ) (hc : c ∈ cs) :
    ∃ b ≤ c.2.2, (cs.foldl updCand st).2.1 = some b := by
  induction cs generalizing st with
  | nil => cases hc
  | cons a cs ih =>
    rw [List.foldl_cons]
    rcases List.mem_cons.mp hc with rfl | hmem
    · by_cases hlt : ltInf c.2.2 st.2.1 = true
      · have hst : (updCand st c).2.1 = some c.2.2 := by simp [updCand, hlt]
        obtain ⟨b', hb', he⟩ := foldl_updCand_mono cs (updCand st c) c.2.2 hst
        exact ⟨b', hb', he⟩
      · cases hso : st.2.1 with
        | none => rw [hso] at hlt; simp [ltInf] at hlt
        | some b0 =>
          have hble : b0 ≤ c.2.2 := by
            rw [hso] at hlt
            simp only [ltInf, decide_eq_true_eq] at hlt
            exact le_of_not_lt hlt
          have hst : (updCand st c).2.1 = some b0 := by
            rw [updCand, if_neg hlt]; exact hso
          obtain ⟨b', hb', he⟩ := foldl_updCand_mono cs (updCand st c) b0 hst
          exact ⟨b', le_trans hb' hble, he⟩
    · exact ih (updCand st a) hmem

theorem foldl_updCand_idx_lt {α : Type} (n : ℕ) (cs : List (ℕ × α × ℚ))
    (st : ScanSt α) (hst : st.1 < n) (hcs : ∀ c ∈ cs, c.1 < n) :
    (cs.foldl updCand st).1 < n := by
  rcases foldl_updCand_attain cs st with h | ⟨c, hc, he⟩
  · rw [h]; exact hst
  · rw [he]; exact hcs c hc

/-! ## Segment path optimization (`optimize_drawing_path`,
`_greedy_optimize` in `optimization/path_optimizer.py`). -/

/-- Candidates of one segment in source order: the distance to its start
(`best_reversed = False`) then to its end (`best_reversed = True`). -/
def segCands (pos : Pt) (i : ℕ) (s : Sg) : List (ℕ × Bool × ℚ) :=
  [(i, false, sqDist pos s.1), (i, true, sqDist pos s.2)]

/-- `for i, seg in enumerate(remaining)` over the two per-segment
candidate checks. -/
def scanSegsAux (pos : Pt) : ℕ → ScanSt Bool → List Sg → ScanSt Bool
  | _, st, [] => st
  | i, st, s :: rest => scanSegsAux pos (i + 1) ((segCands pos i s).foldl updCand st) rest

/-- The inner nearest-endpoint scan of `_greedy_optimize`. -/
def scanSegs (pos : Pt) (segs : List Sg) : ScanSt Bool :=
  scanSegsAux pos 0 (0, none, false) segs

/-- Flattened candidate stream of the scan, in visiting order. -/
def segCandStream (pos : Pt) : ℕ → List Sg → List (ℕ × Bool × ℚ)
  | _, [] => []
  | i, s :: rest => segCands pos i s ++ segCandStream pos (i + 1) rest

theorem scanSegsAux_eq_foldl (pos : Pt) (rest : List Sg) :
    ∀ (i : ℕ) (st : ScanSt Bool),
      scanSegsAux pos i st rest = (segCandStream pos i rest).foldl updCand st := by
  induction rest with
  | nil => intro i st; rfl
  | cons s rest ih =>
    intro i st
    rw [show scanSegsAux pos i st (s :: rest) =
        scanSegsAux pos (i + 1) ((segCands pos i s).foldl updCand st) rest from rfl,
      ih, show segCandStream pos i (s :: rest) =
        segCands pos i s ++ segCandStream pos (i + 1) rest from rfl,
      List.foldl_append]

theorem segCandStream_idx_lt (pos : Pt) (rest : List Sg) :
    ∀ (i : ℕ), ∀ c ∈ segCandStream pos i rest, c.1 < i + rest.length := by
  induction rest with
  | nil => intro i c hc; cases hc
  | cons s rest ih =>
    intro i c hc
    rw [show segCandStream pos i (s :: rest) =
        segCands pos i s ++ segCandStream pos (i + 1) rest from rfl] at hc
    rcases List.mem_append.mp hc with h | h
    · simp only [segCands, List.mem_cons, List.not_mem_nil, or_false] at h
      rcases h with rfl | rfl <;> simp
    · have := ih (i + 1) c h
      simp only [List.length_cons]
      omega

theorem scanSegs_idx_lt (pos : Pt) (segs : List Sg) (h : segs ≠ []) :
    (scanSegs pos segs).1 < segs.length := by
  unfold scanSegs
  rw [scanSegsAux_eq_foldl]
  apply foldl_updCand_idx_lt
  · cases segs with
    | nil => exact absurd rfl h
    | cons a t => simp
  · intro c hc
    have := segCandStream_idx_lt pos segs 0 c hc
    omega

/-- A list is a permutation of any element consed onto its erasure. -/
theorem perm_getElem_cons_eraseIdx {α : Type} (l : List α) (i : ℕ) (h : i < l.length) :
    l.Perm (l[i] :: l.eraseIdx i) := by
  conv_lhs => rw [← List.take_append_drop i l]
  rw [List.drop_eq_getElem_cons h, List.eraseIdx_eq_take_drop_succ]
  exact List.perm_middle

/-- Default segment (never reached: the scan index is proven in range). -/
def dfltSg : Sg := ((0, 0), (0, 0))

/-- The segment popped by one step of `_greedy_optimize`:
`seg = remaining.pop(best_idx)`, reversed when `best_reversed`. -/
def chosenSeg (pos : Pt) (segs : List Sg) : Sg :=
  let r := scanSegs pos segs
  let s0 := segs.getD r.1 dfltSg
  if r.2.2 then flipSeg s0 else s0

/-- The main loop of `_greedy_optimize`: pop the nearest segment
(possibly reversed), draw it, continue from its end point. -/
def greedyGo (pos : Pt) (segs : List Sg) : List Sg :=
  match segs with
  | [] => []
  | a :: t =>
    chosenSeg pos (a :: t) ::
      greedyGo (chosenSeg pos (a :: t)).2 ((a :: t).eraseIdx (scanSegs pos (a :: t)).1)
termination_by segs.length
decreasing_by
  have hlt : (scanSegs pos (a :: t)).1 < (a :: t).length := scanSegs_idx_lt pos _ (by simp)
  have := List.length_eraseIdx_add_one hlt
  omega

theorem greedyGo_nil (pos : Pt) : greedyGo pos [] = [] := by
  rw [greedyGo]

theorem greedyGo_cons (pos : Pt) (a : Sg) (t : List Sg) :
    greedyGo pos (a :: t) =
      chosenSeg pos (a :: t) ::
        greedyGo (chosenSeg pos (a :: t)).2 ((a :: t).eraseIdx (scanSegs pos (a :: t)).1) := by
  rw [greedyGo]

/-- Statistics dict of the segment optimizer. -/
structure OptResult where
  ordered : List Sg
  totalDrawing : ℝ
  totalTravel : ℝ
  numPenLifts : ℕ
  optimizationApplied : Bool

/-- Accumulated `total_drawing`: the sum of the drawn segments'
Euclidean lengths, in drawing order. -/
noncomputable def pathDrawing (l : List Sg) : ℝ :=
  (l.map (fun s => dist2 s.1 s.2)).sum

/-- Accumulated `total_travel`: each step adds the pen-up move from the
current position to the next drawn segment's entry point (`best_dist` in
the source is exactly this distance for the popped candidate). -/
noncomputable def pathTravel (pos : Pt) : List Sg → ℝ
  | [] => 0
  | s :: rest => dist2 pos s.1 + pathTravel s.2 rest

/-- `_greedy_optimize`: order the segments greedily and report the
accumulated statistics.  (The empty branch of the source returns a stats
dict without the `optimization_applied` key; it is modelled as `false`.) -/
noncomputable def greedyOptimize (segs : List Sg) (startPoint : Option Pt) : OptResult :=
  match segs with
  | [] => ⟨[], 0, 0, 0, false⟩
  | s0 :: _ =>
    let pos := startPoint.getD s0.1
    let ordered := greedyGo pos segs
    ⟨ordered, pathDrawing ordered, pathTravel pos ordered, ordered.length - 1, true⟩

/-- `optimize_drawing_path`: explicit 0- and 1-segment branches, then
always the greedy optimizer. -/
noncomputable def optimizeDrawingPath (segs : List Sg) (startPoint : Option Pt) : OptResult :=
  match segs with
  | [] => ⟨[], 0, 0, 0, false⟩
  | [s] => ⟨[s], dist2 s.1 s.2, 0, 0, false⟩
  | _ => greedyOptimize segs startPoint

theorem pathDrawing_cons (s : Sg) (l : List Sg) :
    pathDrawing (s :: l) = dist2 s.1 s.2 + pathDrawing l := by
  simp [pathDrawing]

theorem pathDrawing_perm {l1 l2 : List Sg} (h : l1.Perm l2) :
    pathDrawing l1 = pathDrawing l2 := by
  unfold pathDrawing
  exact List.Perm.sum_eq (List.Perm.map _ h)

/-- Drawing length is invariant under the greedy reordering: the ordered
output draws exactly the input segments (each possibly reversed, which
does not change its length). -/
theorem pathDrawing_greedyGo (n : ℕ) : ∀ (segs : List Sg) (pos : Pt),
    segs.length = n → pathDrawing (greedyGo pos segs) = pathDrawing segs := by
  induction n using Nat.strong_induction_on with
  | _ n ih =>
    intro segs pos hlen
    cases segs with
    | nil => rw [greedyGo_nil]
    | cons a t =>
      rw [greedyGo_cons, pathDrawing_cons]
      have hi : (scanSegs pos (a :: t)).1 < (a :: t).length := scanSegs_idx_lt pos _ (by simp)
      have herase : ((a :: t).eraseIdx (scanSegs pos (a :: t)).1).length < n := by
        have := List.length_eraseIdx_add_one hi
        omega
      rw [ih _ herase _ _ rfl]
      have hgetD : (a :: t).getD (scanSegs pos (a :: t)).1 dfltSg =
          (a :: t)[(scanSegs pos (a :: t)).1] := List.getD_eq_getElem _ dfltSg hi
      have hflip : dist2 (chosenSeg pos (a :: t)).1 (chosenSeg pos (a :: t)).2 =
          dist2 ((a :: t)[(scanSegs pos (a :: t)).1]).1
            ((a :: t)[(scanSegs pos (a :: t)).1]).2 := by
        simp only [chosenSeg, hgetD]
        by_cases hb : (scanSegs pos (a :: t)).2.2 = true
        · rw [if_pos hb]; exact dist2_symm _ _
        · rw [if_neg hb]
      rw [hflip]
      have hperm := perm_getElem_cons_eraseIdx (a :: t) (scanSegs pos (a :: t)).1 hi
      rw [pathDrawing_perm hperm, pathDrawing_cons]

/-- Claim C3: for a fixed non-empty segment set, the reported total
drawing length after greedy optimization of any permutation equals the sum
of the individual input segments' Euclidean lengths, independent of input
order and of the orientations the optimizer chooses. -/
theorem optimizeDrawingPath_drawing_perm_invariant
    (segs segs' : List Sg) (startPoint : Option Pt)
    (hne : segs ≠ []) (hperm : segs.Perm segs') :
    (optimizeDrawingPath segs' startPoint).totalDrawing =
      ((segs.map (fun s => Real.sqrt (sqDist s.1 s.2))).sum : ℝ) := by
  have hsum : ∀ l : List Sg,
      pathDrawing l = (l.map (fun s => Real.sqrt (sqDist s.1 s.2))).sum := fun l => rfl
  have hgoal : (optimizeDrawingPath segs' startPoint).totalDrawing = pathDrawing segs' := by
    match segs' with
    | [] => simp [optimizeDrawingPath, pathDrawing]
    | [s] => simp [optimizeDrawingPath, pathDrawing, pathDrawing_cons]
    | s1 :: s2 :: t =>
      simp only [optimizeDrawingPath, greedyOptimize]
      exact pathDrawing_greedyGo (s1 :: s2 :: t).length _ _ rfl
  rw [hgoal, ← hsum segs]
  exact (pathDrawing_perm hperm).symm

/-- Witness for C3: a concrete two-segment list and its swap. -/
theorem optimizeDrawingPath_drawing_perm_invariant_witness :
    (([(((0 : ℚ), (0 : ℚ)), ((3 : ℚ), (4 : ℚ))), (((1 : ℚ), (1 : ℚ)), ((1 : ℚ), (2 : ℚ)))] :
        List Sg) ≠ [] ∧
      ([(((0 : ℚ), (0 : ℚ)), ((3 : ℚ), (4 : ℚ))), (((1 : ℚ), (1 : ℚ)), ((1 : ℚ), (2 : ℚ)))] :
        List Sg).Perm
        [(((1 : ℚ), (1 : ℚ)), ((1 : ℚ), (2 : ℚ))), (((0 : ℚ), (0 : ℚ)), ((3 : ℚ), (4 : ℚ)))]) ∧
    (optimizeDrawingPath
        [(((1 : ℚ), (1 : ℚ)), ((1 : ℚ), (2 : ℚ))), (((0 : ℚ), (0 : ℚ)), ((3 : ℚ), (4 : ℚ)))]
        none).totalDrawing =
      (([(((0 : ℚ), (0 : ℚ)), ((3 : ℚ), (4 : ℚ))), (((1 : ℚ), (1 : ℚ)), ((1 : ℚ), (2 : ℚ)))] :
        List Sg).map (fun s => Real.sqrt (sqDist s.1 s.2))).sum :=
  ⟨⟨by simp, List.Perm.swap _ _ _⟩,
    optimizeDrawingPath_drawing_perm_invariant _ _ none (by simp) (List.Perm.swap _ _ _)⟩

/-! ## Polyline path optimization (`optimize_polyline_path`,
`_greedy_optimize_polylines` in `optimization/path_optimizer.py`). -/

/-- Default point for head/last lookups (never reached on the nonempty
polylines the source assumes). -/
def zPt : Pt := (0, 0)

/-- `is_closed(polyline)`: at least 2 points with the first within
`0.001` of the last (`dist < 0.001` iff `sqDist < 0.001²`). -/
def isClosedPl (pl : Pl) : Bool :=
  if pl.length < 2 then false
  else decide (sqDist (pl.headD zPt) (pl.getLastD zPt) < 1 / 1000000)

/-- Candidate entry points of one polyline in source order: every vertex
except the duplicated last for a closed ring (`for j in
range(len(polyline) - 1)`), else the two endpoints with markers
`0` and `-1` (`best_start_idx`). -/
def polyCands (pos : Pt) (i : ℕ) (pl : Pl) : List (ℕ × ℤ × ℚ) :=
  if isClosedPl pl then
    pl.dropLast.enum.map (fun jq => (i, (jq.1 : ℤ), sqDist pos jq.2))
  else
    [(i, 0, sqDist pos (pl.headD zPt)), (i, -1, sqDist pos (pl.getLastD zPt))]

/-- `for i, polyline in enumerate(remaining)` over per-polyline candidate
checks. -/
def scanPolysAux (pos : Pt) : ℕ → ScanSt ℤ → List Pl → ScanSt ℤ
  | _, st, [] => st
  | i, st, pl :: rest => scanPolysAux pos (i + 1) ((polyCands pos i pl).foldl updCand st) rest

/-- The nearest-polyline scan of `_greedy_optimize_polylines`. -/
def scanPolys (pos : Pt) (pls : List Pl) : ScanSt ℤ :=
  scanPolysAux pos 0 (0, none, 0) pls

/-- Flattened candidate stream of the polyline scan. -/
def polyCandStream (pos : Pt) : ℕ → List Pl → List (ℕ × ℤ × ℚ)
  | _, [] => []
  | i, pl :: rest => polyCands pos i pl ++ polyCandStream pos (i + 1) rest

theorem scanPolysAux_eq_foldl (pos : Pt) (rest : List Pl) :
    ∀ (i : ℕ) (st : ScanSt ℤ),
      scanPolysAux pos i st rest = (polyCandStream pos i rest).foldl updCand st := by
  induction rest with
  | nil => intro i st; rfl
  | cons pl rest ih =>
    intro i st
    rw [show scanPolysAux pos i st (pl :: rest) =
        scanPolysAux pos (i + 1) ((polyCands pos i pl).foldl updCand st) rest from rfl,
      ih, show polyCandStream pos i (pl :: rest) =
        polyCands pos i pl ++ polyCandStream pos (i + 1) rest from rfl,
      List.foldl_append]

theorem polyCands_fst (pos : Pt) (i : ℕ) (pl : Pl) :
    ∀ c ∈ polyCands pos i pl, c.1 = i := by
  intro c hc
  unfold polyCands at hc
  split at hc
  · obtain ⟨jq, _, rfl⟩ := List.mem_map.mp hc
    rfl
  · simp only [List.mem_cons, List.not_mem_nil, or_false] at hc
    rcases hc with rfl | rfl <;> rfl

theorem polyCandStream_mem (pos : Pt) (rest : List Pl) :
    ∀ (i : ℕ), ∀ c ∈ polyCandStream pos i rest,
      ∃ k, k < rest.length ∧ c ∈ polyCands pos (i + k) (rest.getD k []) := by
  induction rest with
  | nil => intro i c hc; cases hc
  | cons pl rest ih =>
    intro i c hc
    rw [show polyCandStream pos i (pl :: rest) =
        polyCands pos i pl ++ polyCandStream pos (i + 1) rest from rfl] at hc
    rcases List.mem_append.mp hc with h | h
    · exact ⟨0, by simp, by simpa using h⟩
    · obtain ⟨k, hk, hmem⟩ := ih (i + 1) c h
      refine ⟨k + 1, by simp only [List.length_cons]; omega, ?_⟩
      have : i + 1 + k = i + (k + 1) := by omega
      rw [this] at hmem
      simpa using hmem

theorem scanPolys_idx_lt (pos : Pt) (pls : List Pl) (h : pls ≠ []) :
    (scanPolys pos pls).1 < pls.length := by
  unfold scanPolys
  rw [scanPolysAux_eq_foldl]
  apply foldl_updCand_idx_lt
  · cases pls with
    | nil => exact absurd rfl h
    | cons a t => simp
  · intro c hc
    obtain ⟨k, hk, hmem⟩ := polyCandStream_mem pos pls 0 c hc
    have := polyCands_fst pos (0 + k) (pls.getD k []) c hmem
    omega

/-- `polyline[best_start_idx:] + polyline[1:best_start_idx+1]` — rotate a
closed ring to begin at vertex `j`. -/
def rotateClosed (pl : Pl) (j : ℕ) : Pl :=
  pl.drop j ++ (pl.take (j + 1)).drop 1

/-- Orient the popped polyline: rotate a closed ring to the chosen start
vertex (no reversal); reverse an open polyline when entered at its far
endpoint (`best_start_idx == -1`). -/
def placePoly (pl : Pl) (startIdx : ℤ) : Pl :=
  if isClosedPl pl then
    if 0 < startIdx then rotateClosed pl startIdx.toNat else pl
  else
    if startIdx = -1 then pl.reverse else pl

/-- The polyline emitted by one step of `_greedy_optimize_polylines`. -/
def chosenPoly (pos : Pt) (pls : List Pl) : Pl :=
  placePoly (pls.getD (scanPolys pos pls).1 []) (scanPolys pos pls).2.2

/-- The main loop of `_greedy_optimize_polylines`: pop the polyline with
the globally nearest candidate entry point, orient it, continue from its
last point. -/
def greedyPolyGo (pos : Pt) (pls : List Pl) : List Pl :=
  match pls with
  | [] => []
  | a :: t =>
    chosenPoly pos (a :: t) ::
      greedyPolyGo ((chosenPoly pos (a :: t)).getLastD zPt)
        ((a :: t).eraseIdx (scanPolys pos (a :: t)).1)
termination_by pls.length
decreasing_by
  have hlt : (scanPolys pos (a :: t)).1 < (a :: t).length := scanPolys_idx_lt pos _ (by simp)
  have := List.length_eraseIdx_add_one hlt
  omega

theorem greedyPolyGo_nil (pos : Pt) : greedyPolyGo pos [] = [] := by
  rw [greedyPolyGo]

theorem greedyPolyGo_cons (pos : Pt) (a : Pl) (t : List Pl) :
    greedyPolyGo pos (a :: t) =
      chosenPoly pos (a :: t) ::
        greedyPolyGo ((chosenPoly pos (a :: t)).getLastD zPt)
          ((a :: t).eraseIdx (scanPolys pos (a :: t)).1) := by
  rw [greedyPolyGo]

/-- Statistics dict of the polyline optimizer. -/
structure PolyOptResult where
  ordered : List Pl
  totalDrawing : ℝ
  totalTravel : ℝ
  numPenLifts : ℕ
  optimizationApplied : Bool

/-- Drawing length of one polyline: the sum of its consecutive-point
distances (`sum(calculate_distance(p[i], p[i+1]) ...)`). -/
noncomputable def polylineLen (pl : Pl) : ℝ :=
  ((pl.zip pl.tail).map (fun pq => dist2 pq.1 pq.2)).sum

/-- Accumulated pen-up travel: each step adds the distance from the
current position to the emitted polyline's entry point (its first point
after orientation, which carries the chosen `best_dist`). -/
noncomputable def polyTravel (pos : Pt) : List Pl → ℝ
  | [] => 0
  | pl :: rest => dist2 pos (pl.headD zPt) + polyTravel (pl.getLastD zPt) rest

/-- `_greedy_optimize_polylines` with its reported statistics.  (The
empty branch of the source returns a dict without `optimization_applied`;
modelled as `false`.) -/
noncomputable def greedyOptimizePolylines (pls : List Pl) (startPoint : Option Pt) :
    PolyOptResult :=
  match pls with
  | [] => ⟨[], 0, 0, 0, false⟩
  | pl0 :: _ =>
    let pos := startPoint.getD (pl0.headD zPt)
    let ordered := greedyPolyGo pos pls
    ⟨ordered, (ordered.map polylineLen).sum, polyTravel pos ordered, ordered.length - 1, true⟩

/-- `optimize_polyline_path`: explicit 0- and 1-polyline branches, then
the greedy polyline optimizer. -/
noncomputable def optimizePolylinePath (pls : List Pl) (startPoint : Option Pt) :
    PolyOptResult :=
  match pls with
  | [] => ⟨[], 0, 0, 0, false⟩
  | [pl] => ⟨[pl], polylineLen pl, 0, 0, false⟩
  | _ => greedyOptimizePolylines pls startPoint

/-- Claim C4: optimizing zero items returns an empty ordered list with
all statistics zero; optimizing exactly one item returns it unchanged with
zero travel, zero pen lifts and `optimization_applied = false`, for both
the segment and the polyline optimizer. -/
theorem optimize_degenerate_sizes (s : Sg) (pl : Pl) (sp : Option Pt) :
    optimizeDrawingPath [] sp = ⟨[], 0, 0, 0, false⟩ ∧
    optimizeDrawingPath [s] sp = ⟨[s], dist2 s.1 s.2, 0, 0, false⟩ ∧
    optimizePolylinePath [] sp = ⟨[], 0, 0, 0, false⟩ ∧
    optimizePolylinePath [pl] sp = ⟨[pl], polylineLen pl, 0, 0, false⟩ :=
  ⟨rfl, rfl, rfl, rfl⟩

/-- The squared distances of a polyline's candidate entry points: every
vertex but the duplicated last one for a closed ring, else the two
endpoints. -/
def candEntryDists (pos : Pt) (pl : Pl) : List ℚ :=
  if isClosedPl pl then pl.dropLast.map (fun q => sqDist pos q)
  else [sqDist pos (pl.headD zPt), sqDist pos (pl.getLastD zPt)]

theorem polyCands_dist_of_mem (pos : Pt) (i : ℕ) (pl : Pl) (d : ℚ)
    (hd : d ∈ candEntryDists pos pl) :
    ∃ c ∈ polyCands pos i pl, c.2.2 = d := by
  unfold candEntryDists at hd
  unfold polyCands
  by_cases hcl : isClosedPl pl = true
  · rw [if_pos hcl] at hd ⊢
    obtain ⟨q, hq, rfl⟩ := List.mem_map.mp hd
    obtain ⟨j, hj, rfl⟩ := List.getElem_of_mem hq
    refine ⟨(i, (j : ℤ), sqDist pos pl.dropLast[j]), ?_, rfl⟩
    apply List.mem_map.mpr
    refine ⟨(j, pl.dropLast[j]), ?_, rfl⟩
    rw [List.mem_enum_iff_getElem?]
    exact List.getElem?_eq_getElem hj
  · rw [if_neg hcl] at hd ⊢
    simp only [List.mem_cons, List.not_mem_nil, or_false] at hd
    rcases hd with rfl | rfl
    · exact ⟨(i, 0, sqDist pos (pl.headD zPt)), by simp, rfl⟩
    · exact ⟨(i, -1, sqDist pos (pl.getLastD zPt)), by simp, rfl⟩

theorem polyCandStream_mem_of (pos : Pt) (rest : List Pl) :
    ∀ (i k : ℕ) (c : ℕ × ℤ × ℚ), k < rest.length →
      c ∈ polyCands pos (i + k) (rest.getD k []) → c ∈ polyCandStream pos i rest := by
  induction rest with
  | nil =>
    intro i k c hk
    simp at hk
  | cons pl rest ih =>
    intro i k c hk hmem
    rw [show polyCandStream pos i (pl :: rest) =
        polyCands pos i pl ++ polyCandStream pos (i + 1) rest from rfl]
    apply List.mem_append.mpr
    cases k with
    | zero => left; simpa using hmem
    | succ k =>
      right
      apply ih (i + 1) k c (by simp only [List.length_cons] at hk; omega)
      have harith : i + 1 + k = i + (k + 1) := by omega
      rw [harith]
      simpa using hmem

theorem candEntryDists_ne_nil (pos : Pt) (pl : Pl) (h : pl ≠ []) :
    candEntryDists pos pl ≠ [] := by
  unfold candEntryDists
  by_cases hcl : isClosedPl pl = true
  · rw [if_pos hcl]
    have hlen : 2 ≤ pl.length := by
      by_contra hlt
      unfold isClosedPl at hcl
      rw [if_pos (by omega)] at hcl
      cases hcl
    have : pl.dropLast.length = pl.length - 1 := List.length_dropLast pl
    intro hmap
    have := congrArg List.length hmap
    simp at this
    omega
  · rw [if_neg hcl]
    simp

theorem rotateClosed_zero (pl : Pl) : rotateClosed pl 0 = pl := by
  cases pl with
  | nil => rfl
  | cons a t =>
    simp [rotateClosed]

theorem rotateClosed_head (pl : Pl) (j : ℕ) (hj : j < pl.length) :
    (rotateClosed pl j).headD zPt = pl.getD j zPt := by
  unfold rotateClosed
  rw [List.drop_eq_getElem_cons hj, List.cons_append, List.headD_cons,
    List.getD_eq_getElem pl zPt hj]

/-- Claim C6: characterization of one step of `_greedy_optimize_polylines`
(every recursive call has this shape, so the property holds at each step).
The scan index is in range; the loop emits the popped polyline and
recurses past it from its exit point; the chosen best distance is a
global minimum over every remaining item's candidate entry points; a
closed polyline is emitted as the rotation of the ring beginning at the
chosen vertex (no reversal), and an open polyline is emitted as-is when
entered at its first point or fully reversed when entered at its last
point, the chosen distance being the distance to that entry point. -/
theorem greedyPolylines_step_spec (pos : Pt) (pls : List Pl)
    (hne : pls ≠ []) (hall : ∀ pl ∈ pls, pl ≠ []) :
    (scanPolys pos pls).1 < pls.length ∧
    greedyPolyGo pos pls =
      chosenPoly pos pls ::
        greedyPolyGo ((chosenPoly pos pls).getLastD zPt)
          (pls.eraseIdx (scanPolys pos pls).1) ∧
    (∀ pl ∈ pls, ∀ d ∈ candEntryDists pos pl,
      ∃ b ≤ d, (scanPolys pos pls).2.1 = some b) ∧
    (isClosedPl (pls.getD (scanPolys pos pls).1 []) = true →
      ∃ j : ℕ, (scanPolys pos pls).2.2 = (j : ℤ) ∧
        j < (pls.getD (scanPolys pos pls).1 []).length - 1 ∧
        (scanPolys pos pls).2.1 =
          some (sqDist pos ((pls.getD (scanPolys pos pls).1 []).getD j zPt)) ∧
        chosenPoly pos pls = rotateClosed (pls.getD (scanPolys pos pls).1 []) j ∧
        (chosenPoly pos pls).headD zPt = (pls.getD (scanPolys pos pls).1 []).getD j zPt) ∧
    (isClosedPl (pls.getD (scanPolys pos pls).1 []) = false →
      ((scanPolys pos pls).2.2 = 0 ∧
        (scanPolys pos pls).2.1 =
          some (sqDist pos ((pls.getD (scanPolys pos pls).1 []).headD zPt)) ∧
        chosenPoly pos pls = pls.getD (scanPolys pos pls).1 []) ∨
      ((scanPolys pos pls).2.2 = -1 ∧
        (scanPolys pos pls).2.1 =
          some (sqDist pos ((pls.getD (scanPolys pos pls).1 []).getLastD zPt)) ∧
        chosenPoly pos pls = (pls.getD (scanPolys pos pls).1 []).reverse)) := by
  have hstream : scanPolys pos pls = (polyCandStream pos 0 pls).foldl updCand (0, none, 0) := by
    unfold scanPolys
    exact scanPolysAux_eq_foldl pos pls 0 _
  have hi : (scanPolys pos pls).1 < pls.length := scanPolys_idx_lt pos pls hne
  have hmin : ∀ pl ∈ pls, ∀ d ∈ candEntryDists pos pl,
      ∃ b ≤ d, (scanPolys pos pls).2.1 = some b := by
    intro pl hpl d hd
    obtain ⟨k, hk, hkpl⟩ := List.getElem_of_mem hpl
    obtain ⟨c, hc, hcd⟩ := polyCands_dist_of_mem pos (0 + k) pl d hd
    have hgetD : pls.getD k [] = pl := by rw [List.getD_eq_getElem pls [] hk, hkpl]
    have hcs : c ∈ polyCandStream pos 0 pls := by
      apply polyCandStream_mem_of pos pls 0 k c hk
      rw [hgetD]
      exact hc
    obtain ⟨b, hb, he⟩ := foldl_updCand_min _ (0, none, 0) c hcs
    refine ⟨b, hcd ▸ hb, ?_⟩
    rw [hstream]
    exact he
  obtain ⟨a, t, rfl⟩ : ∃ a t, pls = a :: t := by
    cases pls with
    | nil => exact absurd rfl hne
    | cons a t => exact ⟨a, t, rfl⟩
  have hane : a ≠ [] := hall a (by simp)
  obtain ⟨d0, hd0⟩ : ∃ d0, d0 ∈ candEntryDists pos a := by
    cases hcd : candEntryDists pos a with
    | nil => exact absurd hcd (candEntryDists_ne_nil pos a hane)
    | cons x xs => exact ⟨x, by simp⟩
  obtain ⟨b0, _, hsome⟩ := hmin a (by simp) d0 hd0
  rcases foldl_updCand_attain (polyCandStream pos 0 (a :: t)) (0, none, 0) with hinit | ⟨c, hc, he⟩
  · rw [hstream, hinit] at hsome
    cases hsome
  · have hr : scanPolys pos (a :: t) = (c.1, some c.2.2, c.2.1) := by
      rw [hstream]
      exact he
    obtain ⟨k, hk, hkc⟩ := polyCandStream_mem pos (a :: t) 0 c hc
    have hcfst : c.1 = k := by
      have := polyCands_fst pos (0 + k) ((a :: t).getD k []) c hkc
      omega
    rw [show (0 : ℕ) + k = k from by omega] at hkc
    refine ⟨hi, greedyPolyGo_cons pos a t, hmin, ?_, ?_⟩
    · -- closed polyline: rotation at the attained vertex
      intro hclosed
      rw [hr] at hclosed
      dsimp only at hclosed
      rw [hcfst] at hclosed
      unfold chosenPoly
      rw [hr]
      dsimp only
      rw [hcfst]
      rw [polyCands, if_pos hclosed] at hkc
      obtain ⟨⟨j, q⟩, hjq, hceq⟩ := List.mem_map.mp hkc
      rw [List.mem_enum_iff_getElem?] at hjq
      have hj : j < ((a :: t).getD k []).dropLast.length := by
        by_contra hge
        rw [List.getElem?_eq_none (by omega)] at hjq
        cases hjq
      have hq : q = ((a :: t).getD k []).dropLast[j] := by
        rw [List.getElem?_eq_getElem hj] at hjq
        exact (Option.some_injective _ hjq).symm
      have hlen2 : 2 ≤ ((a :: t).getD k []).length := by
        by_contra hlt
        rw [isClosedPl, if_pos (by omega)] at hclosed
        cases hclosed
      have hjlen : j < ((a :: t).getD k []).length - 1 := by
        have := List.length_dropLast ((a :: t).getD k [])
        omega
      have hjlen' : j < ((a :: t).getD k []).length := by omega
      have hqelem : q = ((a :: t).getD k []).getD j zPt := by
        rw [hq, List.getElem_dropLast, List.getD_eq_getElem _ zPt hjlen']
      have hc21 : c.2.1 = (j : ℤ) := by rw [← hceq]
      have hc22 : c.2.2 = sqDist pos q := by rw [← hceq]
      have hplace : placePoly ((a :: t).getD k []) c.2.1 =
          rotateClosed ((a :: t).getD k []) j := by
        rw [hc21, placePoly, if_pos hclosed]
        by_cases hjpos : 0 < (j : ℤ)
        · rw [if_pos hjpos, Int.toNat_natCast]
        · have hj0 : j = 0 := by omega
          rw [if_neg hjpos, hj0, rotateClosed_zero]
      refine ⟨j, hc21, hjlen, ?_, hplace, ?_⟩
      · rw [hc22, hqelem]
      · rw [hplace, rotateClosed_head _ j hjlen']
    · -- open polyline: forward or reversed at the nearer endpoint
      intro hopen
      rw [hr] at hopen
      dsimp only at hopen
      rw [hcfst] at hopen
      unfold chosenPoly
      rw [hr]
      dsimp only
      rw [hcfst]
      rw [polyCands, if_neg (by rw [hopen]; simp)] at hkc
      simp only [List.mem_cons, List.not_mem_nil, or_false] at hkc
      rcases hkc with hceq | hceq
      · left
        have hc21 : c.2.1 = 0 := by rw [hceq]
        have hc22 : c.2.2 = sqDist pos (((a :: t).getD k []).headD zPt) := by rw [hceq]
        refine ⟨hc21, by rw [hc22], ?_⟩
        rw [hc21, placePoly, if_neg (by rw [hopen]; simp), if_neg (by decide)]
      · right
        have hc21 : c.2.1 = -1 := by rw [hceq]
        have hc22 : c.2.2 = sqDist pos (((a :: t).getD k []).getLastD zPt) := by rw [hceq]
        refine ⟨hc21, by rw [hc22], ?_⟩
        rw [hc21, placePoly, if_neg (by rw [hopen]; simp), if_pos rfl]

/-- Witness for `greedyPolylines_step_spec` at a single open polyline. -/
theorem greedyPolylines_step_spec_witness :
    (([[((5 : ℚ), (0 : ℚ)), ((6 : ℚ), (0 : ℚ))]] : List Pl) ≠ [] ∧
      ∀ pl ∈ ([[((5 : ℚ), (0 : ℚ)), ((6 : ℚ), (0 : ℚ))]] : List Pl), pl ≠ []) ∧
    (scanPolys ((0 : ℚ), (0 : ℚ)) [[((5 : ℚ), (0 : ℚ)), ((6 : ℚ), (0 : ℚ))]]).1 <
      ([[((5 : ℚ), (0 : ℚ)), ((6 : ℚ), (0 : ℚ))]] : List Pl).length :=
  ⟨⟨by simp, by simp⟩,
    (greedyPolylines_step_spec ((0 : ℚ), (0 : ℚ)) _ (by simp) (by simp)).1⟩

/-! ## Line infill pattern (`LineInfill.generate` in `infill/patterns.py`).
The trigonometric direction/normal unit vectors (numpy floats) and the
shapely clipping of each scan line are external inputs; the bounding box,
vertex projections, line count with its `1 ≤ n ≤ 10000` safety guard, and
the scan-line loop are translated directly. -/

/-- A point with real coordinates (scan-line endpoints involve the
irrational bounding-box diagonal). -/
abbrev RPt : Type := ℝ × ℝ

/-- A shapely polygon: exterior ring plus interior rings (holes). -/
structure SPoly where
  exterior : List Pt
  interiors : List (List Pt)

/-- `polygon.is_empty`. -/
def SPoly.isEmptyP (p : SPoly) : Bool := p.exterior.isEmpty

/-- All vertices of outer boundary and holes, as gathered by
`generate` before projecting. -/
def SPoly.allCoords (p : SPoly) : List Pt := p.exterior ++ p.interiors.flatten

/-- Minimum of a rational list (numpy `.min()` over a nonempty array). -/
def listMin (l : List ℚ) : ℚ := l.foldl min (l.headD 0)

/-- Maximum of a rational list (numpy `.max()`). -/
def listMax (l : List ℚ) : ℚ := l.foldl max (l.headD 0)

/-- `polygon.bounds = (minx, miny, maxx, maxy)`. -/
def SPoly.boundsP (p : SPoly) : ℚ × ℚ × ℚ × ℚ :=
  (listMin (p.allCoords.map Prod.fst), listMin (p.allCoords.map Prod.snd),
   listMax (p.allCoords.map Prod.fst), listMax (p.allCoords.map Prod.snd))

/-- `np.dot(coords - center, normal)` — signed projections of the
vertices onto the normal, relative to the bounding-box center. -/
def projections (normal center : Pt) (coords : List Pt) : List ℚ :=
  coords.map (fun c => (c.1 - center.1) * normal.1 + (c.2 - center.2) * normal.2)

/-- The bounding-box center of the polygon. -/
def boxCenter (p : SPoly) : Pt :=
  ((p.boundsP.1 + p.boundsP.2.2.1) / 2, (p.boundsP.2.1 + p.boundsP.2.2.2) / 2)

/-- `num_lines = int(math.ceil(proj_length / self.density))`, with the
constructor's density clamp `self.density = max(0.1, density)`. -/
def lineInfillNumLines (p : SPoly) (normal : Pt) (density : ℚ) : ℤ :=
  let projs := projections normal (boxCenter p) p.allCoords
  ⌈(listMax projs - listMin projs) / max (1/10) density⌉

/-- The scan lines generated by `for i in range(num_lines + 1)`: each is
the full-length chord through `center + normal*offset` extended by the
bounding-box diagonal in both directions. -/
noncomputable def lineInfillScanLines (p : SPoly) (normal : Pt) (direction : RPt)
    (density : ℚ) : List (RPt × RPt) :=
  let bs := p.boundsP
  let diagonal : ℝ := Real.sqrt (((bs.2.2.1 - bs.1 : ℚ) : ℝ) ^ 2 + ((bs.2.2.2 - bs.2.1 : ℚ) : ℝ) ^ 2)
  let center := boxCenter p
  let projs := projections normal center p.allCoords
  let projMin := listMin projs
  let projMax := listMax projs
  let numLines := lineInfillNumLines p normal density
  (List.range (numLines.toNat + 1)).map (fun (i : ℕ) =>
    let t : ℚ := if 0 < numLines then (i : ℚ) / (numLines : ℚ) else 0
    let offset := projMin + t * (projMax - projMin)
    let lineCenter : Pt := (center.1 + normal.1 * offset, center.2 + normal.2 * offset)
    (((lineCenter.1 : ℝ) - direction.1 * diagonal, (lineCenter.2 : ℝ) - direction.2 * diagonal),
     ((lineCenter.1 : ℝ) + direction.1 * diagonal, (lineCenter.2 : ℝ) + direction.2 * diagonal)))

/-- `LineInfill.generate`: guards for an empty polygon, a degenerate
bounding box, and an out-of-range line count; then clip every scan line
and concatenate the pieces. -/
noncomputable def lineInfillGenerate (clip : RPt × RPt → List (RPt × RPt)) (p : SPoly)
    (normal : Pt) (direction : RPt) (density : ℚ) : List (RPt × RPt) :=
  if p.isEmptyP then []
  else
    let bs := p.boundsP
    if bs.2.2.1 - bs.1 ≤ 0 ∨ bs.2.2.2 - bs.2.1 ≤ 0 then []
    else
      let numLines := lineInfillNumLines p normal density
      if numLines ≤ 0 ∨ 10000 < numLines then []
      else (lineInfillScanLines p normal direction density).flatMap clip

/-- Amended C7: the `num_lines` count is range-checked against
`1 ≤ n ≤ 10000`, but the emission loop runs `num_lines + 1` times, so
between 2 and 10,001 scan lines are generated; an out-of-range count
yields an empty segment list (no exception path exists). -/
theorem lineInfill_line_count_spec (clip : RPt × RPt → List (RPt × RPt)) (p : SPoly)
    (normal : Pt) (direction : RPt) (density : ℚ) :
    ((lineInfillScanLines p normal direction density).length =
      (lineInfillNumLines p normal density).toNat + 1) ∧
    (0 < lineInfillNumLines p normal density ∧ lineInfillNumLines p normal density ≤ 10000 →
      2 ≤ (lineInfillScanLines p normal direction density).length ∧
      (lineInfillScanLines p normal direction density).length ≤ 10001) ∧
    (lineInfillNumLines p normal density ≤ 0 ∨ 10000 < lineInfillNumLines p normal density →
      lineInfillGenerate clip p normal direction density = []) := by
  have hlen : (lineInfillScanLines p normal direction density).length =
      (lineInfillNumLines p normal density).toNat + 1 := by
    unfold lineInfillScanLines
    simp only [List.length_map, List.length_range]
  refine ⟨hlen, ?_, ?_⟩
  · intro ⟨h1, h2⟩
    rw [hlen]
    omega
  · intro hout
    unfold lineInfillGenerate
    by_cases hemp : p.isEmptyP = true
    · rw [if_pos hemp]
    · rw [if_neg hemp]
      by_cases hdeg : p.boundsP.2.2.1 - p.boundsP.1 ≤ 0 ∨ p.boundsP.2.2.2 - p.boundsP.2.1 ≤ 0
      · simp only [hdeg, if_true]
      · simp only [hdeg, if_false]
        have : lineInfillNumLines p normal density ≤ 0 ∨
            10000 < lineInfillNumLines p normal density := hout
        simp only [this, if_true]

/-- The 1 mm × 1000 mm rectangle driving the counterexample. -/
def tallRect : SPoly := ⟨[(0, 0), (0, 1000), (1, 1000), (1, 0)], []⟩

/-- Counterexample to C7 as stated: with density `0.1` on a 1000 mm tall
rectangle at angle 0 (`direction = (1,0)`, `normal = (0,1)`, both exact),
`num_lines = 10000` passes the guard and the loop emits 10001 scan
lines — more than the claimed maximum of 10,000. -/
theorem lineInfill_count_counterexample :
    lineInfillNumLines tallRect (0, 1) (1/10) = 10000 ∧
    (lineInfillScanLines tallRect (0, 1) ((1 : ℝ), (0 : ℝ)) (1/10)).length = 10001 ∧
    ¬ (lineInfillScanLines tallRect (0, 1) ((1 : ℝ), (0 : ℝ)) (1/10)).length ≤ 10000 := by
  have hnum : lineInfillNumLines tallRect (0, 1) (1/10) = 10000 := by
    unfold lineInfillNumLines tallRect projections boxCenter SPoly.boundsP SPoly.allCoords
    norm_num [listMin, listMax]
  have hlen : (lineInfillScanLines tallRect (0, 1) ((1 : ℝ), (0 : ℝ)) (1/10)).length =
      10001 := by
    unfold lineInfillScanLines
    rw [List.length_map, List.length_range, hnum]
    rfl
  exact ⟨hnum, hlen, by omega⟩

/-- Witness for `lineInfill_line_count_spec` on a unit square with
density `0.5`: `num_lines = 2`, within range, and the guard hypotheses of
the theorem hold. -/
theorem lineInfill_line_count_spec_witness :
    (0 < lineInfillNumLines ⟨[(0, 0), (0, 1), (1, 1), (1, 0)], []⟩ (0, 1) (1/2) ∧
      lineInfillNumLines ⟨[(0, 0), (0, 1), (1, 1), (1, 0)], []⟩ (0, 1) (1/2) ≤ 10000) ∧
    2 ≤ (lineInfillScanLines ⟨[(0, 0), (0, 1), (1, 1), (1, 0)], []⟩ (0, 1)
        ((1 : ℝ), (0 : ℝ)) (1/2)).length ∧
    (lineInfillScanLines ⟨[(0, 0), (0, 1), (1, 1), (1, 0)], []⟩ (0, 1)
        ((1 : ℝ), (0 : ℝ)) (1/2)).length ≤ 10001 := by
  have hnum : lineInfillNumLines ⟨[(0, 0), (0, 1), (1, 1), (1, 0)], []⟩ (0, 1) (1/2) = 2 := by
    unfold lineInfillNumLines projections boxCenter SPoly.boundsP SPoly.allCoords
    norm_num [listMin, listMax]
  have hhyp : 0 < lineInfillNumLines ⟨[(0, 0), (0, 1), (1, 1), (1, 0)], []⟩ (0, 1) (1/2) ∧
      lineInfillNumLines ⟨[(0, 0), (0, 1), (1, 1), (1, 0)], []⟩ (0, 1) (1/2) ≤ 10000 := by
    rw [hnum]
    omega
  exact ⟨hhyp,
    ((lineInfill_line_count_spec (fun s => [s]) ⟨[(0, 0), (0, 1), (1, 1), (1, 0)], []⟩
      (0, 1) ((1 : ℝ), (0 : ℝ)) (1/2)).2.1 hhyp)⟩

/-! ## Zigzag infill stitching (`ZigZagInfill.generate_polylines` in
`infill/patterns.py`).  The scan-line generation is the same as
`LineInfill` (modelled above); the stitching loop below takes the clipped
scan lines (`scan_lines`, empty clip results already filtered out) and
connects them into polylines.  The comparison `dist <= threshold` with
`threshold = 2 * density > 0` is embedded as `sqDist ≤ threshold²`. -/

/-- Orientation of scan line `i`: odd lines are traversed backwards
(`segments = [(s[1], s[0]) for s in reversed(segments)]`), alternating
because `forward` toggles once per scan line. -/
def orientScanLine (i : ℕ) (segs : List Sg) : List Sg :=
  if i % 2 = 1 then segs.reverse.map flipSeg else segs

/-- All scan lines with alternating orientation applied. -/
def orientScanLines (scanLines : List (List Sg)) : List (List Sg) :=
  scanLines.enum.map (fun iseg => orientScanLine iseg.1 iseg.2)

/-- One stitching step on state `(polylines, current)` for the next
oriented segment `(start, end)`: start a polyline, extend it with `end`
only when `start` is within the threshold of the current last point, or
flush and restart. -/
def zigzagStep (thr2 : ℚ) (st : List Pl × Pl) (sg : Sg) : List Pl × Pl :=
  match st.2 with
  | [] => (st.1, [sg.1, sg.2])
  | _ :: _ =>
    if sqDist (st.2.getLastD zPt) sg.1 ≤ thr2 then (st.1, st.2 ++ [sg.2])
    else ((if 2 ≤ st.2.length then st.1 ++ [st.2] else st.1), [sg.1, sg.2])

/-- The stitching phase of `generate_polylines`: fold the step over every
segment of every oriented scan line, then flush the final polyline. -/
def zigzagStitch (density : ℚ) (scanLines : List (List Sg)) : List Pl :=
  let thr2 := (density * 2) ^ 2
  let st := (orientScanLines scanLines).foldl
    (fun st segs => segs.foldl (zigzagStep thr2) st) ([], [])
  st.1 ++ (if 2 ≤ st.2.length then [st.2] else [])

/-- Specification-side run splitting, modelled from the amended claim:
cut the oriented segment stream into maximal runs in which each segment's
start point lies within the threshold of the previous segment's end
point. -/
def splitRunsGo (near : Sg → Sg → Bool) (cur : List Sg) (lastSg : Sg) :
    List Sg → List (List Sg)
  | [] => [cur]
  | b :: rest =>
    if near lastSg b then splitRunsGo near (cur ++ [b]) b rest
    else cur :: splitRunsGo near [b] b rest

/-- Split a segment stream into threshold-connected runs. -/
def splitRuns (near : Sg → Sg → Bool) : List Sg → List (List Sg)
  | [] => []
  | a :: rest => splitRunsGo near [a] a rest

/-- The polyline drawn for one run: the first segment's start point
followed by every segment's end point (interior start points are
dropped). -/
def runToPolyline (run : List Sg) : Pl :=
  (run.headD dfltSg).1 :: run.map (fun s => s.2)

/-- The adjacency test of the stitch: the next segment starts within the
(squared) threshold of the previous segment's end. -/
def nearEnough (thr2 : ℚ) (a b : Sg) : Bool :=
  decide (sqDist a.2 b.1 ≤ thr2)

theorem runToPolyline_getLast (run : List Sg) (h : run ≠ []) :
    (runToPolyline run).getLastD zPt = (run.getLastD dfltSg).2 := by
  unfold runToPolyline
  rw [List.getLastD_cons]
  cases run with
  | nil => exact absurd rfl h
  | cons a t =>
    rw [show (a :: t).map (fun s => s.2) = a.2 :: t.map (fun s => s.2) from rfl]
    rw [List.getLastD_cons]
    induction t generalizing a with
    | nil => rfl
    | cons b t ih =>
      rw [show (b :: t).map (fun s : Sg => s.2) = b.2 :: t.map (fun s => s.2) from rfl]
      rw [List.getLastD_cons, List.getLastD_cons]
      exact ih b (by simp)

theorem runToPolyline_append (run : List Sg) (b : Sg) (h : run ≠ []) :
    runToPolyline (run ++ [b]) = runToPolyline run ++ [b.2] := by
  unfold runToPolyline
  cases run with
  | nil => exact absurd rfl h
  | cons a t => simp

theorem runToPolyline_length (run : List Sg) (h : run ≠ []) :
    2 ≤ (runToPolyline run).length := by
  unfold runToPolyline
  cases run with
  | nil => exact absurd rfl h
  | cons a t => simp

theorem zigzagStep_nil (thr2 : ℚ) (polys : List Pl) (b : Sg) :
    zigzagStep thr2 (polys, []) b = (polys, [b.1, b.2]) := rfl

theorem zigzagStep_cons (thr2 : ℚ) (polys : List Pl) (p0 : Pt) (ps : Pl) (b : Sg) :
    zigzagStep thr2 (polys, p0 :: ps) b =
      if sqDist ((p0 :: ps).getLastD zPt) b.1 ≤ thr2 then (polys, (p0 :: ps) ++ [b.2])
      else ((if 2 ≤ (p0 :: ps).length then polys ++ [p0 :: ps] else polys),
        [b.1, b.2]) := rfl

/-- Core stitching invariant: folding the step over the remaining stream
with a nonempty run in progress produces exactly the run splitting of the
amended specification. -/
theorem zigzagStep_go (thr2 : ℚ) :
    ∀ (stream : List Sg) (polys : List Pl) (run : List Sg), run ≠ [] →
      (stream.foldl (zigzagStep thr2) (polys, runToPolyline run)).1 ++
        (if 2 ≤ (stream.foldl (zigzagStep thr2) (polys, runToPolyline run)).2.length
          then [(stream.foldl (zigzagStep thr2) (polys, runToPolyline run)).2] else []) =
      polys ++
        (splitRunsGo (nearEnough thr2) run (run.getLastD dfltSg) stream).map runToPolyline := by
  intro stream
  induction stream with
  | nil =>
    intro polys run hrun
    simp only [List.foldl_nil, splitRunsGo, List.map]
    rw [if_pos (runToPolyline_length run hrun)]
  | cons b rest ih =>
    intro polys run hrun
    have hcur : runToPolyline run = (run.headD dfltSg).1 :: run.map (fun s => s.2) := rfl
    simp only [List.foldl_cons]
    rw [hcur, zigzagStep_cons, ← hcur]
    rw [runToPolyline_getLast run hrun]
    by_cases hnear : sqDist (run.getLastD dfltSg).2 b.1 ≤ thr2
    · rw [if_pos hnear]
      rw [show (runToPolyline run) ++ [b.2] = runToPolyline (run ++ [b]) from
        (runToPolyline_append run b hrun).symm]
      have := ih polys (run ++ [b]) (by simp)
      rw [List.getLastD_concat] at this
      rw [this]
      rw [show splitRunsGo (nearEnough thr2) run (run.getLastD dfltSg) (b :: rest) =
        if nearEnough thr2 (run.getLastD dfltSg) b then
          splitRunsGo (nearEnough thr2) (run ++ [b]) b rest
        else run :: splitRunsGo (nearEnough thr2) [b] b rest from rfl]
      rw [if_pos (by unfold nearEnough; exact decide_eq_true hnear)]
    · rw [if_neg hnear]
      rw [if_pos (by rw [hcur] at *; exact runToPolyline_length run hrun)]
      rw [show ([b.1, b.2] : Pl) = runToPolyline [b] from rfl]
      have := ih (polys ++ [runToPolyline run]) [b] (by simp)
      rw [show ([b] : List Sg).getLastD dfltSg = b from rfl] at this
      rw [this]
      rw [show splitRunsGo (nearEnough thr2) run (run.getLastD dfltSg) (b :: rest) =
        if nearEnough thr2 (run.getLastD dfltSg) b then
          splitRunsGo (nearEnough thr2) (run ++ [b]) b rest
        else run :: splitRunsGo (nearEnough thr2) [b] b rest from rfl]
      rw [if_neg (by unfold nearEnough; simp only [decide_eq_true_eq]; exact hnear)]
      simp

/-- Amended C8: the zigzag stitch equals the specification that splits
the alternating-orientation segment stream into maximal runs connected by
gaps of at most `2 × density` (measured from the previous segment's end
to the next segment's start) and draws each run as its first start point
followed by every end point — the interior connection points are dropped
from the output. -/
theorem zigzagStitch_spec (density : ℚ) (scanLines : List (List Sg)) :
    zigzagStitch density scanLines =
      (splitRuns (nearEnough ((density * 2) ^ 2))
        ((orientScanLines scanLines).flatten)).map runToPolyline := by
  unfold zigzagStitch
  dsimp only
  rw [show (orientScanLines scanLines).foldl
      (fun st segs => segs.foldl (zigzagStep ((density * 2) ^ 2)) st) (([], []) : List Pl × Pl) =
      ((orientScanLines scanLines).flatten).foldl (zigzagStep ((density * 2) ^ 2)) ([], []) from
    (List.foldl_flatten _ _ _).symm]
  cases hstream : (orientScanLines scanLines).flatten with
  | nil => rfl
  | cons a rest =>
    rw [List.foldl_cons, zigzagStep_nil]
    rw [show ([a.1, a.2] : Pl) = runToPolyline [a] from rfl]
    have hgo := zigzagStep_go ((density * 2) ^ 2) rest [] [a] (by simp)
    rw [show ([a] : List Sg).getLastD dfltSg = a from rfl] at hgo
    rw [hgo]
    rfl

/-- Counterexample to C8 as stated: two scan lines with a 1 mm gap and
density 1 (threshold 2).  The stitch connects the first line's exit
`(10,0)` to the second (oriented) line's start `(10,1)` — which is also
its nearest endpoint, within the threshold — but the connection point
`(10,1)` does not appear in the output polyline: only the far endpoint
`(0,1)` is appended. -/
theorem zigzagStitch_connection_counterexample :
    zigzagStitch 1 [[(((0 : ℚ), (0 : ℚ)), ((10 : ℚ), (0 : ℚ)))],
        [(((0 : ℚ), (1 : ℚ)), ((10 : ℚ), (1 : ℚ)))]] =
      [[((0 : ℚ), (0 : ℚ)), ((10 : ℚ), (0 : ℚ)), ((0 : ℚ), (1 : ℚ))]] ∧
    sqDist ((10 : ℚ), (0 : ℚ)) ((10 : ℚ), (1 : ℚ)) ≤ ((1 : ℚ) * 2) ^ 2 ∧
    ((10 : ℚ), (1 : ℚ)) ∉
      ([((0 : ℚ), (0 : ℚ)), ((10 : ℚ), (0 : ℚ)), ((0 : ℚ), (1 : ℚ))] : Pl) := by
  refine ⟨?_, by norm_num [sqDist], by norm_num⟩
  norm_num [zigzagStitch, orientScanLines, orientScanLine, zigzagStep, sqDist, zPt,
    List.enum, List.enumFrom, flipSeg]

/-! ## Batch error recovery (`generate_infill_for_polygons` in
`infill/utils.py` and the polygon loop of `extract_centerlines` in
`centerline_extractor.py`).  The per-polygon pipelines (shapely
conversion + pattern generation, shapely `Polygon` construction, and the
per-method extraction body) are abstracted as `Except`-valued functions;
a `try/except` that logs and continues maps `Except.error` to the
recovery behavior, while code outside any `try` re-raises, modelled by
propagating the error. -/

/-- An input polygon: `{"outer": [...], "holes": [[...], ...]}`. -/
structure PolyData where
  outer : List Pt
  holes : List (List Pt)

/-- `generate_infill_for_polygons`: degenerate outers are skipped; the
`try` block wraps conversion and generation, and its `except` logs and
continues, so a failing polygon contributes no segments and the loop
moves on. -/
def generateInfillForPolygons {E : Type} (gen : PolyData → Except E (List Sg)) :
    List PolyData → List Sg
  | [] => []
  | pd :: rest =>
    (if pd.outer.length < 3 then []
      else
        match gen pd with
        | .ok segs => segs
        | .error _ => []) ++ generateInfillForPolygons gen rest

/-- The polygon loop of `extract_centerlines`: a short outer ring or a
failing shapely `Polygon` construction (the only code under `try`)
contributes an empty list and the loop continues; the per-polygon
extraction call sits outside the `try`, so its exception propagates and
aborts the whole batch. -/
def extractCenterlinesBatch {E G : Type} (mkPoly : PolyData → Except E G)
    (extract : G → Except E (List Pl)) : List PolyData → Except E (List (List Pl))
  | [] => .ok []
  | pd :: rest =>
    if pd.outer.length < 3 then
      (extractCenterlinesBatch mkPoly extract rest).map (fun r => [] :: r)
    else
      match mkPoly pd with
      | .error _ => (extractCenterlinesBatch mkPoly extract rest).map (fun r => [] :: r)
      | .ok poly =>
        match extract poly with
        | .error e => .error e
        | .ok pls => (extractCenterlinesBatch mkPoly extract rest).map (fun r => pls :: r)

/-- Amended C9: an exception inside the infill pipeline for one polygon
contributes nothing and every other polygon is still processed; in
centerline extraction only the shapely polygon construction is recovered
(empty result, batch continues) — an exception inside the per-polygon
extraction method itself propagates and aborts the remainder of the
batch. -/
theorem batch_error_recovery_spec {E G : Type} (gen : PolyData → Except E (List Sg))
    (mkPoly : PolyData → Except E G) (extract : G → Except E (List Pl))
    (xs ys : List PolyData) (pd : PolyData) (e : E) :
    (gen pd = .error e →
      generateInfillForPolygons gen (xs ++ pd :: ys) =
        generateInfillForPolygons gen xs ++ generateInfillForPolygons gen ys) ∧
    (mkPoly pd = .error e →
      extractCenterlinesBatch mkPoly extract (pd :: ys) =
        (extractCenterlinesBatch mkPoly extract ys).map (fun r => [] :: r)) ∧
    (∀ g, 3 ≤ pd.outer.length → mkPoly pd = .ok g → extract g = .error e →
      extractCenterlinesBatch mkPoly extract (pd :: ys) = .error e) := by
  refine ⟨?_, ?_, ?_⟩
  · intro hgen
    induction xs with
    | nil =>
      rw [show generateInfillForPolygons gen ([] ++ pd :: ys) =
        (if pd.outer.length < 3 then []
          else
            match gen pd with
            | .ok segs => segs
            | .error _ => []) ++ generateInfillForPolygons gen ys from rfl]
      rw [hgen, show generateInfillForPolygons gen ([] : List PolyData) = [] from rfl]
      simp
    | cons q qs ih =>
      rw [show ((q :: qs) ++ pd :: ys) = q :: (qs ++ pd :: ys) from rfl]
      rw [show generateInfillForPolygons gen (q :: (qs ++ pd :: ys)) =
        (if q.outer.length < 3 then []
          else
            match gen q with
            | .ok segs => segs
            | .error _ => []) ++ generateInfillForPolygons gen (qs ++ pd :: ys) from rfl]
      rw [ih]
      rw [show generateInfillForPolygons gen (q :: qs) =
        (if q.outer.length < 3 then []
          else
            match gen q with
            | .ok segs => segs
            | .error _ => []) ++ generateInfillForPolygons gen qs from rfl]
      rw [List.append_assoc]
  · intro hmk
    by_cases hdeg : pd.outer.length < 3
    · rw [show extractCenterlinesBatch mkPoly extract (pd :: ys) =
        if pd.outer.length < 3 then
          (extractCenterlinesBatch mkPoly extract ys).map (fun r => [] :: r)
        else
          match mkPoly pd with
          | .error _ => (extractCenterlinesBatch mkPoly extract ys).map (fun r => [] :: r)
          | .ok poly =>
            match extract poly with
            | .error e => .error e
            | .ok pls => (extractCenterlinesBatch mkPoly extract ys).map
                (fun r => pls :: r) from rfl]
      rw [if_pos hdeg]
    · rw [show extractCenterlinesBatch mkPoly extract (pd :: ys) =
        if pd.outer.length < 3 then
          (extractCenterlinesBatch mkPoly extract ys).map (fun r => [] :: r)
        else
          match mkPoly pd with
          | .error _ => (extractCenterlinesBatch mkPoly extract ys).map (fun r => [] :: r)
          | .ok poly =>
            match extract poly with
            | .error e => .error e
            | .ok pls => (extractCenterlinesBatch mkPoly extract ys).map
                (fun r => pls :: r) from rfl]
      rw [if_neg hdeg, hmk]
  · intro g hlen hmk hext
    have hstep : extractCenterlinesBatch mkPoly extract (pd :: ys) =
        match extract g with
        | .error e => .error e
        | .ok pls => (extractCenterlinesBatch mkPoly extract ys).map (fun r => pls :: r) := by
      rw [show extractCenterlinesBatch mkPoly extract (pd :: ys) =
        if pd.outer.length < 3 then
          (extractCenterlinesBatch mkPoly extract ys).map (fun r => [] :: r)
        else
          match mkPoly pd with
          | .error _ => (extractCenterlinesBatch mkPoly extract ys).map (fun r => [] :: r)
          | .ok poly =>
            match extract poly with
            | .error e => .error e
            | .ok pls => (extractCenterlinesBatch mkPoly extract ys).map
                (fun r => pls :: r) from rfl]
      rw [if_neg (by omega), hmk]
    rw [hstep, hext]

/-- A valid 3-vertex input polygon for the counterexample. -/
def triData : PolyData := ⟨[(0, 0), (1, 0), (0, 1)], []⟩

/-- Counterexample to C9 as stated: with a per-polygon extraction that
raises (modelled as `Except.error ()`) and a batch of two valid polygons,
`extract_centerlines` aborts on the first polygon — the error propagates
and no per-polygon result list is returned at all, so the second polygon
is never processed. -/
theorem batch_abort_counterexample :
    extractCenterlinesBatch (fun _ => Except.ok ()) (fun _ => Except.error ())
        [triData, triData] = Except.error () ∧
    ∀ rs : List (List Pl),
      extractCenterlinesBatch (fun _ => Except.ok ()) (fun _ => Except.error ())
        [triData, triData] ≠ Except.ok rs := by
  refine ⟨rfl, ?_⟩
  intro rs h
  rw [show extractCenterlinesBatch (fun _ => Except.ok ()) (fun _ => Except.error ())
    [triData, triData] = Except.error () from rfl] at h
  cases h

/-- Witness for `batch_error_recovery_spec`: a concrete failing generator
on a concrete two-polygon infill batch, and a concrete extraction
failure. -/
theorem batch_error_recovery_spec_witness :
    ((fun pd : PolyData => if pd.outer.length < 3 then Except.ok [] else
        (Except.error () : Except Unit (List Sg))) triData = .error ()) ∧
    generateInfillForPolygons
        (fun pd : PolyData => if pd.outer.length < 3 then Except.ok [] else
          (Except.error () : Except Unit (List Sg)))
        ([triData] ++ triData :: [triData]) =
      generateInfillForPolygons
          (fun pd : PolyData => if pd.outer.length < 3 then Except.ok [] else
            (Except.error () : Except Unit (List Sg))) [triData] ++
        generateInfillForPolygons
          (fun pd : PolyData => if pd.outer.length < 3 then Except.ok [] else
            (Except.error () : Except Unit (List Sg))) [triData] := by
  have hgen : (fun pd : PolyData => if pd.outer.length < 3 then Except.ok [] else
      (Except.error () : Except Unit (List Sg))) triData = .error () := rfl
  exact ⟨hgen,
    (batch_error_recovery_spec
      (fun pd : PolyData => if pd.outer.length < 3 then Except.ok [] else
        (Except.error () : Except Unit (List Sg)))
      (fun _ => Except.ok ()) (fun _ => Except.error ())
      [triData] [triData] triData ()).1 hgen⟩
